import Mathlib

/-!
Verification of the polygon overlay engine specified by this repository's design
document. The repository's example scripts call an external `overlay` function;
the design document specifies the engine (data model §3, algorithm §4.1, error
handling §7). The engine is embedded here from that specification: geometric
primitives (clip, difference, area) are the external collaborator interface of
§6, modelled exactly over unit grid cells so that all set algebra and area
arithmetic is exact.
-/

namespace Overlay

/-- Modelled from the spec: a planar cell of the exact areal model. A polygonal
extent is the finite set of unit grid cells it covers; each cell has area 1. -/
abbrev Cell : Type := ℤ × ℤ

/-- Modelled from the spec (§6): the areal extent handed to the engine by the
geometry collaborator, with exact intersection, difference and area. -/
abbrev Region : Type := Finset Cell

/-- Modelled from the spec (§3): geometry is a tagged variant over Point,
LineString, Polygon and MultiPolygon. Point and LineString carry coordinate
data but no areal extent; Polygon and MultiPolygon carry their areal extent. -/
inductive Geometry where
  | point : Cell → Geometry
  | lineString : List Cell → Geometry
  | polygon : Region → Geometry
  | multiPolygon : List Region → Geometry
deriving DecidableEq

/-- Modelled from the spec (§4.1): only Polygon and MultiPolygon are polygonal;
overlay set-algebra is defined for areal features only. -/
def Geometry.isPolygonal : Geometry → Bool
  | .point _ => false
  | .lineString _ => false
  | .polygon _ => true
  | .multiPolygon _ => true

/-- Modelled from the spec (§6): areal extent of a geometry. Degenerate (zero
dimensional and one dimensional) geometries have empty areal extent. -/
def Geometry.region : Geometry → Region
  | .point _ => ∅
  | .lineString _ => ∅
  | .polygon r => r
  | .multiPolygon rs => rs.foldr (fun r acc => r ∪ acc) ∅

/-- Modelled from the spec (§3): an attribute value is a string, a number or
null. -/
inductive Scalar where
  | str : String → Scalar
  | num : ℚ → Scalar
  | null : Scalar
deriving DecidableEq

/-- Modelled from the spec (§3): a feature is a geometry plus a mapping from
attribute name to scalar value. -/
structure Feature where
  geometry : Geometry
  attrs : List (String × Scalar)
deriving DecidableEq

/-- Areal extent of a feature. -/
def Feature.region (f : Feature) : Region := f.geometry.region

/-- Modelled from the spec (§3): a layer is an ordered sequence of features
sharing a common coordinate reference, which the engine treats as opaque
metadata compared structurally. -/
structure Layer where
  crs : String
  features : List Feature
deriving DecidableEq

/-- Modelled from the spec (§4.1, §9): the overlay mode, a closed tagged
variant over the five set operations. -/
inductive Mode where
  | intersection : Mode
  | union : Mode
  | difference : Mode
  | symmetric_difference : Mode
  | identity : Mode
deriving DecidableEq

/-- Modelled from the spec (§7): the whole-layer precondition errors; these
abort the call immediately with no partial result. -/
inductive OverlayError where
  | crsMismatch : OverlayError
  | unsupportedGeometry : OverlayError
deriving DecidableEq

/-- Modelled from the spec (§3): an output feature of an overlay, tagged with
provenance (the contributing input feature index in layer A and in layer B,
when one contributed) and carrying the assembled attributes. -/
structure OutFeature where
  srcA : Option Nat
  srcB : Option Nat
  geometry : Region
  attrs : List (String × Scalar)
deriving DecidableEq

/-- Modelled from the spec (§3): the overlay result, an ordered sequence of
output features under the common reference frame of the inputs. -/
structure OverlayResult where
  crs : String
  features : List OutFeature
deriving DecidableEq

/-- Modelled from the spec (§3): merged attributes carry the keys of both
contributing features, with a disambiguating suffix when both inputs define
the same attribute key. -/
def mergeAttrs (a b : List (String × Scalar)) : List (String × Scalar) :=
  (a.map fun p => if b.any fun q => q.1 == p.1 then (p.1 ++ "_1", p.2) else p) ++
  (b.map fun q => if a.any fun p => p.1 == q.1 then (q.1 ++ "_2", q.2) else q)

/-- Union of the areal extents of a list of features. -/
def unionRegion (l : List Feature) : Region :=
  l.foldr (fun f acc => f.region ∪ acc) ∅

/-- Modelled from the spec (§4.1): the residual of a region after iterated set
difference against every feature of the other layer. -/
def residual (l : List Feature) (r : Region) : Region :=
  l.foldl (fun acc f => acc \ f.region) r

/-- Modelled from the spec (§4.1 steps 2 and 3): the pairwise intersections of
one A feature (index `i`) against the features of layer B starting at index
`j`, in increasing B index order; empty (degenerate) results are discarded and
attributes are merged. -/
def interRow (i : Nat) (a : Feature) : Nat → List Feature → List OutFeature
  | _, [] => []
  | j, b :: bs =>
      (if a.region ∩ b.region = ∅ then []
       else [⟨some i, some j, a.region ∩ b.region, mergeAttrs a.attrs b.attrs⟩]) ++
      interRow i a (j + 1) bs

/-- Modelled from the spec (§4.1): the residual part of one A feature (index
`i`) after subtracting all B features; an empty residual is discarded, and the
attributes are the A attributes only. -/
def diffRow (i : Nat) (a : Feature) (B : List Feature) : List OutFeature :=
  if residual B a.region = ∅ then []
  else [⟨some i, none, residual B a.region, a.attrs⟩]

/-- Modelled from the spec (§4.1): the residual part of one B feature (index
`j`) after subtracting all A features; attributes are the B attributes only. -/
def diffRowB (j : Nat) (b : Feature) (A : List Feature) : List OutFeature :=
  if residual A b.region = ∅ then []
  else [⟨none, some j, residual A b.region, b.attrs⟩]

/-- Intersection assembly: all nonempty pairwise intersections, primarily in A
index order, secondarily in B index order (spec §4.1 step 4). -/
def interPart : Nat → List Feature → List Feature → List OutFeature
  | _, [], _ => []
  | i, a :: as, B => interRow i a 0 B ++ interPart (i + 1) as B

/-- Difference assembly: the residual of each A feature, in A index order. -/
def diffPartA : Nat → List Feature → List Feature → List OutFeature
  | _, [], _ => []
  | i, a :: as, B => diffRow i a B ++ diffPartA (i + 1) as B

/-- Residuals of the B features against layer A, in B index order. -/
def diffPartB : Nat → List Feature → List Feature → List OutFeature
  | _, [], _ => []
  | j, b :: bs, A => diffRowB j b A ++ diffPartB (j + 1) bs A

/-- Identity assembly (spec §4.1): for each A feature, its pairwise
intersections with B followed by its residual, so the output is
(A intersection B) unioned with (A difference B) emitted primarily in A index
order. -/
def identPart : Nat → List Feature → List Feature → List OutFeature
  | _, [], _ => []
  | i, a :: as, B => interRow i a 0 B ++ diffRow i a B ++ identPart (i + 1) as B

/-- Modelled from the spec (§4.1 step 3): mode-specific assembly. Union is the
identity assembly (pairwise intersections plus A residuals) followed by the B
residuals; symmetric difference is the A residuals followed by the B
residuals. -/
def assemble : Mode → List Feature → List Feature → List OutFeature
  | .intersection, A, B => interPart 0 A B
  | .union, A, B => identPart 0 A B ++ diffPartB 0 B A
  | .difference, A, B => diffPartA 0 A B
  | .symmetric_difference, A, B => diffPartA 0 A B ++ diffPartB 0 B A
  | .identity, A, B => identPart 0 A B

/-- Modelled from the spec (§4.1, §7): the overlay engine. Both layers must
share a structurally equal reference frame, else the call aborts with a CRS
mismatch error; every geometry must be polygonal, else the call aborts with an
unsupported geometry error; otherwise the mode-specific assembly is returned
as a newly constructed result. -/
def overlay (A B : Layer) (m : Mode) : Except OverlayError OverlayResult :=
  if A.crs = B.crs then
    if (A.features.all fun f => f.geometry.isPolygonal) &&
       (B.features.all fun f => f.geometry.isPolygonal) then
      .ok ⟨A.crs, assemble m A.features B.features⟩
    else .error .unsupportedGeometry
  else .error .crsMismatch

/-- Total area of a list of output features: the sum of the exact areas of the
feature geometries (each cell has unit area, so areas are exact naturals). -/
def areaSum (l : List OutFeature) : ℕ :=
  (l.map fun f => f.geometry.card).sum

/-- Total area of an overlay result. -/
def OverlayResult.totalArea (r : OverlayResult) : ℕ := areaSum r.features

/-- Total area of a layer: the sum of the areas of its features. -/
def Layer.totalArea (L : Layer) : ℕ :=
  (L.features.map fun f => f.region.card).sum

/-- Axis-aligned square of side `s` whose lower-left corner is `(x, y)`,
as the set of unit cells it covers. -/
def square (x y s : ℤ) : Region :=
  Finset.Ico x (x + s) ×ˢ Finset.Ico y (y + s)

/-- Layer A of the spec's concrete scenario: the square (0,0)-(2,2). -/
def layerA1 : Layer :=
  ⟨"plane", [⟨.polygon (square 0 0 2), [("df1", .num 1)]⟩]⟩

/-- Layer B of the spec's concrete scenario: the square (1,1)-(3,3). -/
def layerB1 : Layer :=
  ⟨"plane", [⟨.polygon (square 1 1 2), [("df2", .num 1)]⟩]⟩

/-- Total area of a successful overlay call. -/
def okArea (e : Except OverlayError OverlayResult) : Option ℕ :=
  e.toOption.map OverlayResult.totalArea

/-- Per-feature intersection area of one A feature against a whole layer: the
sum of the areas of its pairwise intersections with every B feature. -/
def interAreaRow (a : Feature) (B : List Feature) : ℕ :=
  (B.map fun b => (a.region ∩ b.region).card).sum

/-- Covered extent of a list of output features: the union of their areal
extents. -/
def coverageR (l : List OutFeature) : Region :=
  l.foldr (fun f acc => f.geometry ∪ acc) ∅

/-- Sort key of a provenance index: present indices in input order first, an
absent index last. -/
def okey : Option ℕ → ℕ × ℕ
  | none => (1, 0)
  | some n => (0, n)

/-- Strict lexicographic order on sort keys. -/
def keyLt (x y : ℕ × ℕ) : Prop :=
  x.1 < y.1 ∨ (x.1 = y.1 ∧ x.2 < y.2)

/-- Modelled from the spec (§4.1 step 4): the deterministic emission order,
primarily by input-A feature index, secondarily by input-B feature index. -/
def provLt (f g : OutFeature) : Prop :=
  keyLt (okey f.srcA) (okey g.srcA) ∨
  (okey f.srcA = okey g.srcA ∧ keyLt (okey f.srcB) (okey g.srcB))

instance (x y : ℕ × ℕ) : Decidable (keyLt x y) := by
  unfold keyLt; infer_instance

instance (f g : OutFeature) : Decidable (provLt f g) := by
  unfold provLt; infer_instance

/-- Layer A of the counterexample to unrestricted area additivity: one unit
square at the origin. -/
def cexA : Layer := ⟨"plane", [⟨.polygon (square 0 0 1), []⟩]⟩

/-- Layer B of the counterexample to unrestricted area additivity: two
coincident copies of the unit square at the origin (a layer that overlaps
itself). -/
def cexB : Layer :=
  ⟨"plane", [⟨.polygon (square 0 0 1), []⟩, ⟨.polygon (square 0 0 1), []⟩]⟩

/-- Modelled from the spec (§3 Lifecycle): the caller's workspace, holding the
constructed input layers and the result layers the engine has produced. -/
structure Workspace where
  inputs : List Layer
  results : List OverlayResult
deriving DecidableEq

/-- Modelled from the spec (§3 Lifecycle): run the engine on two layers of the
workspace, designated by index. The inputs are read only; on success the newly
constructed result is appended to the workspace results, and on a precondition
failure the workspace is returned unchanged. -/
def runOverlay (w : Workspace) (ia ib : Nat) (m : Mode) : Workspace :=
  match w.inputs[ia]?, w.inputs[ib]? with
  | some A, some B =>
      match overlay A B m with
      | .ok r => ⟨w.inputs, w.results ++ [r]⟩
      | .error _ => w
  | _, _ => w

/-- Modelled from the spec (§6): exact area of a single geometry, as computed
by the geometry collaborator. Rational valued so that fractional areas can be
formed. -/
def gArea (g : Geometry) : ℚ := (g.region.card : ℚ)

/-- Modelled from the spec (§6): the pairwise geometric intersection primitive
of the geometry collaborator, returning the clipped areal extent. -/
def gIntersection (g m : Geometry) : Geometry :=
  .polygon (g.region ∩ m.region)

/-- A layer far from the scenario layers: the square (5,5)-(7,7); it overlaps
neither `layerA1` nor `layerB1`. -/
def layerFar : Layer :=
  ⟨"plane", [⟨.polygon (square 5 5 2), [("far", .num 1)]⟩]⟩

/-- An empty layer under a different reference frame. -/
def layerBadCrs : Layer := ⟨"other", []⟩

/-- A layer holding a zero dimensional (non polygonal) geometry. -/
def layerPt : Layer := ⟨"plane", [⟨.point (0, 0), []⟩]⟩

/-! Helper lemmas about regions, residuals and areas. -/

@[simp]
theorem unionRegion_nil : unionRegion [] = ∅ := rfl

@[simp]
theorem unionRegion_cons (f : Feature) (l : List Feature) :
    unionRegion (f :: l) = f.region ∪ unionRegion l := rfl

theorem mem_unionRegion {x : Cell} {l : List Feature} :
    x ∈ unionRegion l ↔ ∃ f ∈ l, x ∈ f.region := by
  induction l with
  | nil => simp
  | cons f t ih => simp [ih]

theorem residual_eq (l : List Feature) (r : Region) :
    residual l r = r \ unionRegion l := by
  induction l generalizing r with
  | nil => simp [residual]
  | cons f t ih =>
      show residual t (r \ f.region) = _
      rw [ih]
      ext x
      simp only [Finset.mem_sdiff, unionRegion_cons, Finset.mem_union]
      tauto

@[simp]
theorem areaSum_nil : areaSum [] = 0 := rfl

@[simp]
theorem areaSum_cons (f : OutFeature) (l : List OutFeature) :
    areaSum (f :: l) = f.geometry.card + areaSum l := by
  simp [areaSum]

@[simp]
theorem areaSum_append (l₁ l₂ : List OutFeature) :
    areaSum (l₁ ++ l₂) = areaSum l₁ + areaSum l₂ := by
  simp [areaSum]

theorem sum_map_add_distrib {α : Type} (l : List α) (f g : α → ℕ) :
    (l.map fun x => f x + g x).sum = (l.map f).sum + (l.map g).sum := by
  induction l with
  | nil => simp
  | cons a t ih => simp [ih]; omega

theorem sum_map_zero {α : Type} (l : List α) :
    (l.map fun _ => (0 : ℕ)).sum = 0 := by
  induction l with
  | nil => rfl
  | cons a t ih => simp [ih]

theorem sum_comm_list {α β : Type} (l₁ : List α) (l₂ : List β) (f : α → β → ℕ) :
    (l₁.map fun a => (l₂.map fun b => f a b).sum).sum =
    (l₂.map fun b => (l₁.map fun a => f a b).sum).sum := by
  induction l₁ with
  | nil => simp [sum_map_zero]
  | cons a t ih =>
      have : (l₂.map fun b => (((a :: t).map fun a => f a b)).sum).sum =
          (l₂.map fun b => f a b + ((t.map fun a => f a b)).sum).sum := by
        simp
      rw [this, sum_map_add_distrib, ← ih]
      simp

theorem areaSum_interRow (i : ℕ) (a : Feature) (j : ℕ) (B : List Feature) :
    areaSum (interRow i a j B) = interAreaRow a B := by
  induction B generalizing j with
  | nil => simp [interRow, interAreaRow]
  | cons b bs ih =>
      by_cases h : a.region ∩ b.region = ∅ <;>
        simp [interRow, h, interAreaRow, ih]

theorem areaSum_diffRow (i : ℕ) (a : Feature) (B : List Feature) :
    areaSum (diffRow i a B) = (a.region \ unionRegion B).card := by
  unfold diffRow
  by_cases h : residual B a.region = ∅
  · rw [if_pos h, ← residual_eq, h]; simp
  · rw [if_neg h]; simp [residual_eq]

theorem areaSum_diffRowB (j : ℕ) (b : Feature) (A : List Feature) :
    areaSum (diffRowB j b A) = (b.region \ unionRegion A).card := by
  unfold diffRowB
  by_cases h : residual A b.region = ∅
  · rw [if_pos h, ← residual_eq, h]; simp
  · rw [if_neg h]; simp [residual_eq]

theorem areaSum_interPart (i : ℕ) (A B : List Feature) :
    areaSum (interPart i A B) = (A.map fun a => interAreaRow a B).sum := by
  induction A generalizing i with
  | nil => simp [interPart]
  | cons a t ih => simp [interPart, areaSum_interRow, ih]

theorem areaSum_diffPartA (i : ℕ) (A B : List Feature) :
    areaSum (diffPartA i A B) =
      (A.map fun a => (a.region \ unionRegion B).card).sum := by
  induction A generalizing i with
  | nil => simp [diffPartA]
  | cons a t ih => simp [diffPartA, areaSum_diffRow, ih]

theorem areaSum_diffPartB (j : ℕ) (B A : List Feature) :
    areaSum (diffPartB j B A) =
      (B.map fun b => (b.region \ unionRegion A).card).sum := by
  induction B generalizing j with
  | nil => simp [diffPartB]
  | cons b t ih => simp [diffPartB, areaSum_diffRowB, ih]

theorem areaSum_identPart (i : ℕ) (A B : List Feature) :
    areaSum (identPart i A B) =
      (A.map fun a => interAreaRow a B + (a.region \ unionRegion B).card).sum := by
  induction A generalizing i with
  | nil => simp [identPart]
  | cons a t ih => simp [identPart, areaSum_interRow, areaSum_diffRow, ih, add_assoc]

theorem disjoint_unionRegion {b : Feature} {bs : List Feature}
    (h : ∀ b' ∈ bs, b.region ∩ b'.region = ∅) :
    Disjoint b.region (unionRegion bs) := by
  rw [Finset.disjoint_left]
  intro x hx hmem
  rcases mem_unionRegion.mp hmem with ⟨b', hb', hxb'⟩
  have := h b' hb'
  have : x ∈ b.region ∩ b'.region := Finset.mem_inter.mpr ⟨hx, hxb'⟩
  simp_all

theorem interAreaRow_of_pairwise {a : Feature} {B : List Feature}
    (hB : B.Pairwise fun b b' => b.region ∩ b'.region = ∅) :
    interAreaRow a B = (a.region ∩ unionRegion B).card := by
  induction B with
  | nil => simp [interAreaRow]
  | cons b bs ih =>
      rcases List.pairwise_cons.mp hB with ⟨hb, hbs⟩
      have hdisj : Disjoint (a.region ∩ b.region) (a.region ∩ unionRegion bs) :=
        Finset.disjoint_of_subset_left Finset.inter_subset_right
          (Finset.disjoint_of_subset_right Finset.inter_subset_right
            (disjoint_unionRegion hb))
      have : a.region ∩ unionRegion (b :: bs) =
          (a.region ∩ b.region) ∪ (a.region ∩ unionRegion bs) := by
        rw [unionRegion_cons, Finset.inter_union_distrib_left]
      rw [this, Finset.card_union_of_disjoint hdisj, ← ih hbs]
      simp [interAreaRow]

theorem overlay_ok_elim {A B : Layer} {m : Mode} {r : OverlayResult}
    (h : overlay A B m = .ok r) :
    r = ⟨A.crs, assemble m A.features B.features⟩ := by
  unfold overlay at h
  by_cases h1 : A.crs = B.crs
  · rw [if_pos h1] at h
    by_cases h2 : (A.features.all fun f => f.geometry.isPolygonal) &&
        (B.features.all fun f => f.geometry.isPolygonal)
    · rw [if_pos h2] at h
      cases h
      rfl
    · rw [if_neg h2] at h
      cases h
  · rw [if_neg h1] at h
    cases h

theorem length_diffPartB_eq (B A : List Feature) (j i : ℕ) :
    (diffPartB j B A).length = (diffPartA i B A).length := by
  induction B generalizing i j with
  | nil => rfl
  | cons b bs ih =>
      show (diffRowB j b A ++ diffPartB (j + 1) bs A).length =
        (diffRow i b A ++ diffPartA (i + 1) bs A).length
      rw [List.length_append, List.length_append, ih (j + 1) (i + 1)]
      unfold diffRow diffRowB
      by_cases h : residual A b.region = ∅ <;> simp [h]

theorem mem_diffRow_attrs {f : OutFeature} {i : ℕ} {a : Feature} {B : List Feature}
    (h : f ∈ diffRow i a B) :
    f.srcA = some i ∧ f.srcB = none ∧ f.attrs = a.attrs ∧
      f.geometry = a.region \ unionRegion B := by
  unfold diffRow at h
  by_cases hc : residual B a.region = ∅
  · rw [if_pos hc] at h; cases h
  · rw [if_neg hc] at h
    rcases List.mem_singleton.mp h with rfl
    exact ⟨rfl, rfl, rfl, residual_eq B a.region⟩

theorem mem_diffRowB_attrs {f : OutFeature} {j : ℕ} {b : Feature} {A : List Feature}
    (h : f ∈ diffRowB j b A) :
    f.srcA = none ∧ f.srcB = some j ∧ f.attrs = b.attrs ∧
      f.geometry = b.region \ unionRegion A := by
  unfold diffRowB at h
  by_cases hc : residual A b.region = ∅
  · rw [if_pos hc] at h; cases h
  · rw [if_neg hc] at h
    rcases List.mem_singleton.mp h with rfl
    exact ⟨rfl, rfl, rfl, residual_eq A b.region⟩

theorem mem_diffPartA_attrs {f : OutFeature} {i : ℕ} {A B : List Feature}
    (h : f ∈ diffPartA i A B) :
    f.srcB = none ∧ ∃ a ∈ A, f.attrs = a.attrs ∧
      f.geometry = a.region \ unionRegion B := by
  induction A generalizing i with
  | nil => cases h
  | cons a t ih =>
      rcases List.mem_append.mp h with h1 | h2
      · rcases mem_diffRow_attrs h1 with ⟨_, h2, h3, h4⟩
        exact ⟨h2, a, List.mem_cons_self a t, h3, h4⟩
      · rcases ih h2 with ⟨h1, a', ha', h3, h4⟩
        exact ⟨h1, a', List.mem_cons_of_mem a ha', h3, h4⟩

theorem mem_diffPartB_attrs {f : OutFeature} {j : ℕ} {B A : List Feature}
    (h : f ∈ diffPartB j B A) :
    f.srcA = none ∧ ∃ b ∈ B, f.attrs = b.attrs ∧
      f.geometry = b.region \ unionRegion A := by
  induction B generalizing j with
  | nil => cases h
  | cons b t ih =>
      rcases List.mem_append.mp h with h1 | h2
      · rcases mem_diffRowB_attrs h1 with ⟨h1, _, h3, h4⟩
        exact ⟨h1, b, List.mem_cons_self b t, h3, h4⟩
      · rcases ih h2 with ⟨h1, b', hb', h3, h4⟩
        exact ⟨h1, b', List.mem_cons_of_mem b hb', h3, h4⟩

@[simp]
theorem coverageR_nil : coverageR [] = ∅ := rfl

@[simp]
theorem coverageR_cons (f : OutFeature) (l : List OutFeature) :
    coverageR (f :: l) = f.geometry ∪ coverageR l := rfl

theorem coverageR_append (l₁ l₂ : List OutFeature) :
    coverageR (l₁ ++ l₂) = coverageR l₁ ∪ coverageR l₂ := by
  induction l₁ with
  | nil => simp
  | cons f t ih => simp [ih, Finset.union_assoc]

theorem coverageR_interRow (i : ℕ) (a : Feature) (j : ℕ) (B : List Feature) :
    coverageR (interRow i a j B) = a.region ∩ unionRegion B := by
  induction B generalizing j with
  | nil => simp [interRow]
  | cons b bs ih =>
      by_cases h : a.region ∩ b.region = ∅
      · simp only [interRow, if_pos h, List.nil_append]
        rw [ih, unionRegion_cons, Finset.inter_union_distrib_left, h,
          Finset.empty_union]
      · simp only [interRow, if_neg h, List.singleton_append, coverageR_cons]
        rw [ih, unionRegion_cons, Finset.inter_union_distrib_left]

theorem coverageR_interDiff (i : ℕ) (a : Feature) (B : List Feature) :
    coverageR (interRow i a 0 B) ∪ coverageR (diffRow i a B) = a.region := by
  rw [coverageR_interRow]
  unfold diffRow
  by_cases h : residual B a.region = ∅
  · rw [if_pos h, coverageR_nil, Finset.union_empty]
    rw [residual_eq] at h
    exact Finset.inter_eq_left.mpr (Finset.sdiff_eq_empty_iff_subset.mp h)
  · rw [if_neg h]
    show a.region ∩ unionRegion B ∪ (residual B a.region ∪ ∅) = a.region
    rw [Finset.union_empty, residual_eq, Finset.union_comm,
      Finset.sdiff_union_inter]

theorem coverageR_identPart (i : ℕ) (A B : List Feature) :
    coverageR (identPart i A B) = unionRegion A := by
  induction A generalizing i with
  | nil => rfl
  | cons a t ih =>
      show coverageR ((interRow i a 0 B ++ diffRow i a B) ++ identPart (i + 1) t B) = _
      rw [coverageR_append, coverageR_append, coverageR_interDiff, ih,
        unionRegion_cons]

theorem mem_interRow_attrs {f : OutFeature} {i : ℕ} {a : Feature} {j : ℕ}
    {B : List Feature} (h : f ∈ interRow i a j B) :
    f.srcA = some i ∧ (∃ k, j ≤ k ∧ f.srcB = some k) ∧
      ∃ b ∈ B, f.attrs = mergeAttrs a.attrs b.attrs ∧
        f.geometry = a.region ∩ b.region := by
  induction B generalizing j with
  | nil => cases h
  | cons b bs ih =>
      unfold interRow at h
      rcases List.mem_append.mp h with h1 | h2
      · by_cases hc : a.region ∩ b.region = ∅
        · rw [if_pos hc] at h1; cases h1
        · rw [if_neg hc] at h1
          rcases List.mem_singleton.mp h1 with rfl
          exact ⟨rfl, ⟨j, le_refl j, rfl⟩, b, List.mem_cons_self b bs, rfl, rfl⟩
      · rcases ih h2 with ⟨h1, ⟨k, hk, h3⟩, b', hb', h4, h5⟩
        exact ⟨h1, ⟨k, le_trans (Nat.le_succ j) hk, h3⟩,
          b', List.mem_cons_of_mem b hb', h4, h5⟩

theorem mem_identPart_attrs {f : OutFeature} {i : ℕ} {A B : List Feature}
    (h : f ∈ identPart i A B) :
    (∃ k, i ≤ k ∧ f.srcA = some k) ∧
      ((∃ a ∈ A, ∃ b ∈ B, f.attrs = mergeAttrs a.attrs b.attrs ∧
          f.geometry = a.region ∩ b.region) ∨
       (∃ a ∈ A, f.attrs = a.attrs ∧
          f.geometry = a.region \ unionRegion B)) := by
  induction A generalizing i with
  | nil => cases h
  | cons a t ih =>
      rcases List.mem_append.mp h with h1 | h4
      · rcases List.mem_append.mp h1 with h2 | h3
        · rcases mem_interRow_attrs h2 with ⟨hs, _, b, hb, h5, h6⟩
          exact ⟨⟨i, le_refl i, hs⟩,
            Or.inl ⟨a, List.mem_cons_self a t, b, hb, h5, h6⟩⟩
        · rcases mem_diffRow_attrs h3 with ⟨hs, _, h5, h6⟩
          exact ⟨⟨i, le_refl i, hs⟩, Or.inr ⟨a, List.mem_cons_self a t, h5, h6⟩⟩
      · rcases ih h4 with ⟨⟨k, hk, hs⟩, hrest⟩
        refine ⟨⟨k, le_trans (Nat.le_succ i) hk, hs⟩, ?_⟩
        rcases hrest with ⟨a', ha', rest⟩ | ⟨a', ha', rest⟩
        · exact Or.inl ⟨a', List.mem_cons_of_mem a ha', rest⟩
        · exact Or.inr ⟨a', List.mem_cons_of_mem a ha', rest⟩

theorem interRow_eq_nil {i : ℕ} {a : Feature} {j : ℕ} {B : List Feature}
    (h : ∀ b ∈ B, a.region ∩ b.region = ∅) : interRow i a j B = [] := by
  induction B generalizing j with
  | nil => rfl
  | cons b bs ih =>
      unfold interRow
      rw [if_pos (h b (List.mem_cons_self b bs)), List.nil_append]
      exact ih fun b' hb' => h b' (List.mem_cons_of_mem b hb')

theorem interPart_eq_nil {i : ℕ} {A B : List Feature}
    (h : ∀ a ∈ A, ∀ b ∈ B, a.region ∩ b.region = ∅) : interPart i A B = [] := by
  induction A generalizing i with
  | nil => rfl
  | cons a t ih =>
      show interRow i a 0 B ++ interPart (i + 1) t B = []
      rw [interRow_eq_nil (h a (List.mem_cons_self a t)), List.nil_append]
      exact ih fun a' ha' => h a' (List.mem_cons_of_mem a ha')

theorem interAreaRow_eq_zero {a : Feature} {B : List Feature}
    (h : ∀ b ∈ B, a.region ∩ b.region = ∅) : interAreaRow a B = 0 := by
  induction B with
  | nil => rfl
  | cons b bs ih =>
      have h1 := h b (List.mem_cons_self b bs)
      have h2 := ih fun b' hb' => h b' (List.mem_cons_of_mem b hb')
      simp [interAreaRow, h1] at h2 ⊢
      exact h2

theorem sdiff_unionRegion_eq_self {r : Region} {L : List Feature}
    (h : ∀ b ∈ L, r ∩ b.region = ∅) : r \ unionRegion L = r := by
  ext x
  simp only [Finset.mem_sdiff, mem_unionRegion]
  constructor
  · exact fun hx => hx.1
  · intro hx
    refine ⟨hx, ?_⟩
    rintro ⟨b, hb, hxb⟩
    have h1 := h b hb
    have h2 : x ∈ r ∩ b.region := Finset.mem_inter.mpr ⟨hx, hxb⟩
    simp_all

theorem interArea_swap (A B : List Feature) :
    (A.map fun a => interAreaRow a B).sum = (B.map fun b => interAreaRow b A).sum := by
  simp only [interAreaRow]
  rw [sum_comm_list]
  simp [Finset.inter_comm]

theorem provLt_srcA_lt {f g : OutFeature} {i k : ℕ} (hf : f.srcA = some i)
    (hg : g.srcA = some k) (h : i < k) : provLt f g := by
  refine Or.inl ?_
  rw [hf, hg]
  simp [okey, keyLt]
  omega

theorem provLt_srcA_some_none {f g : OutFeature} {i : ℕ} (hf : f.srcA = some i)
    (hg : g.srcA = none) : provLt f g := by
  refine Or.inl ?_
  rw [hf, hg]
  simp [okey, keyLt]

theorem provLt_same_srcA {f g : OutFeature} {x : Option ℕ} {j k : ℕ}
    (hf : f.srcA = x) (hg : g.srcA = x) (hfb : f.srcB = some j)
    (hgb : g.srcB = some k) (h : j < k) : provLt f g := by
  refine Or.inr ⟨by rw [hf, hg], ?_⟩
  rw [hfb, hgb]
  simp [okey, keyLt]
  omega

theorem provLt_srcB_some_none {f g : OutFeature} {x : Option ℕ} {j : ℕ}
    (hf : f.srcA = x) (hg : g.srcA = x) (hfb : f.srcB = some j)
    (hgb : g.srcB = none) : provLt f g := by
  refine Or.inr ⟨by rw [hf, hg], ?_⟩
  rw [hfb, hgb]
  simp [okey, keyLt]

theorem mem_interPart_src {f : OutFeature} {i : ℕ} {A B : List Feature}
    (h : f ∈ interPart i A B) : ∃ k, i ≤ k ∧ f.srcA = some k := by
  induction A generalizing i with
  | nil => cases h
  | cons a t ih =>
      rcases List.mem_append.mp h with h1 | h2
      · exact ⟨i, le_refl i, (mem_interRow_attrs h1).1⟩
      · rcases ih h2 with ⟨k, hk, hs⟩
        exact ⟨k, le_trans (Nat.le_succ i) hk, hs⟩

theorem mem_diffPartA_src {f : OutFeature} {i : ℕ} {A B : List Feature}
    (h : f ∈ diffPartA i A B) : ∃ k, i ≤ k ∧ f.srcA = some k := by
  induction A generalizing i with
  | nil => cases h
  | cons a t ih =>
      rcases List.mem_append.mp h with h1 | h2
      · exact ⟨i, le_refl i, (mem_diffRow_attrs h1).1⟩
      · rcases ih h2 with ⟨k, hk, hs⟩
        exact ⟨k, le_trans (Nat.le_succ i) hk, hs⟩

theorem mem_diffPartB_src {f : OutFeature} {j : ℕ} {B A : List Feature}
    (h : f ∈ diffPartB j B A) :
    f.srcA = none ∧ ∃ k, j ≤ k ∧ f.srcB = some k := by
  induction B generalizing j with
  | nil => cases h
  | cons b t ih =>
      rcases List.mem_append.mp h with h1 | h2
      · rcases mem_diffRowB_attrs h1 with ⟨h1, h2, _⟩
        exact ⟨h1, j, le_refl j, h2⟩
      · rcases ih h2 with ⟨h1, k, hk, hs⟩
        exact ⟨h1, k, le_trans (Nat.le_succ j) hk, hs⟩

theorem pairwise_interRow (i : ℕ) (a : Feature) (j : ℕ) (B : List Feature) :
    (interRow i a j B).Pairwise provLt := by
  induction B generalizing j with
  | nil => simp [interRow]
  | cons b bs ih =>
      unfold interRow
      by_cases hc : a.region ∩ b.region = ∅
      · rw [if_pos hc, List.nil_append]
        exact ih (j + 1)
      · rw [if_neg hc, List.singleton_append, List.pairwise_cons]
        refine ⟨?_, ih (j + 1)⟩
        intro g hg
        rcases mem_interRow_attrs hg with ⟨hs, ⟨k, hk, hsb⟩, _⟩
        exact provLt_same_srcA rfl hs rfl hsb (by omega)

theorem pairwise_diffRow (i : ℕ) (a : Feature) (B : List Feature) :
    (diffRow i a B).Pairwise provLt := by
  unfold diffRow
  by_cases hc : residual B a.region = ∅
  · rw [if_pos hc]; exact List.Pairwise.nil
  · rw [if_neg hc]; simp

theorem pairwise_interDiff (i : ℕ) (a : Feature) (B : List Feature) :
    (interRow i a 0 B ++ diffRow i a B).Pairwise provLt := by
  rw [List.pairwise_append]
  refine ⟨pairwise_interRow i a 0 B, pairwise_diffRow i a B, ?_⟩
  intro f hf g hg
  rcases mem_interRow_attrs hf with ⟨hfa, ⟨k, _, hfb⟩, _⟩
  rcases mem_diffRow_attrs hg with ⟨hga, hgb, _⟩
  exact provLt_srcB_some_none hfa hga hfb hgb

theorem pairwise_interPart (i : ℕ) (A B : List Feature) :
    (interPart i A B).Pairwise provLt := by
  induction A generalizing i with
  | nil => exact List.Pairwise.nil
  | cons a t ih =>
      show (interRow i a 0 B ++ interPart (i + 1) t B).Pairwise provLt
      rw [List.pairwise_append]
      refine ⟨pairwise_interRow i a 0 B, ih (i + 1), ?_⟩
      intro f hf g hg
      rcases mem_interRow_attrs hf with ⟨hfa, _, _⟩
      rcases mem_interPart_src hg with ⟨k, hk, hga⟩
      exact provLt_srcA_lt hfa hga (by omega)

theorem pairwise_diffPartA (i : ℕ) (A B : List Feature) :
    (diffPartA i A B).Pairwise provLt := by
  induction A generalizing i with
  | nil => exact List.Pairwise.nil
  | cons a t ih =>
      show (diffRow i a B ++ diffPartA (i + 1) t B).Pairwise provLt
      rw [List.pairwise_append]
      refine ⟨pairwise_diffRow i a B, ih (i + 1), ?_⟩
      intro f hf g hg
      rcases mem_diffRow_attrs hf with ⟨hfa, _, _⟩
      rcases mem_diffPartA_src hg with ⟨k, hk, hga⟩
      exact provLt_srcA_lt hfa hga (by omega)

theorem pairwise_diffPartB (j : ℕ) (B A : List Feature) :
    (diffPartB j B A).Pairwise provLt := by
  induction B generalizing j with
  | nil => exact List.Pairwise.nil
  | cons b t ih =>
      show (diffRowB j b A ++ diffPartB (j + 1) t A).Pairwise provLt
      rw [List.pairwise_append]
      refine ⟨?_, ih (j + 1), ?_⟩
      · unfold diffRowB
        by_cases hc : residual A b.region = ∅
        · rw [if_pos hc]; exact List.Pairwise.nil
        · rw [if_neg hc]; simp
      · intro f hf g hg
        rcases mem_diffRowB_attrs hf with ⟨hfa, hfb, _⟩
        rcases mem_diffPartB_src hg with ⟨hga, k, hk, hgb⟩
        exact provLt_same_srcA hfa hga hfb hgb (by omega)

theorem pairwise_identPart (i : ℕ) (A B : List Feature) :
    (identPart i A B).Pairwise provLt := by
  induction A generalizing i with
  | nil => exact List.Pairwise.nil
  | cons a t ih =>
      show ((interRow i a 0 B ++ diffRow i a B) ++ identPart (i + 1) t B).Pairwise provLt
      rw [List.pairwise_append]
      refine ⟨pairwise_interDiff i a B, ih (i + 1), ?_⟩
      intro f hf g hg
      have hfa : f.srcA = some i := by
        rcases List.mem_append.mp hf with h1 | h2
        · exact (mem_interRow_attrs h1).1
        · exact (mem_diffRow_attrs h2).1
      rcases mem_identPart_attrs hg with ⟨⟨k, hk, hga⟩, _⟩
      exact provLt_srcA_lt hfa hga (by omega)

theorem pairwise_assemble (m : Mode) (A B : List Feature) :
    (assemble m A B).Pairwise provLt := by
  cases m with
  | intersection => exact pairwise_interPart 0 A B
  | difference => exact pairwise_diffPartA 0 A B
  | identity => exact pairwise_identPart 0 A B
  | union =>
      show (identPart 0 A B ++ diffPartB 0 B A).Pairwise provLt
      rw [List.pairwise_append]
      refine ⟨pairwise_identPart 0 A B, pairwise_diffPartB 0 B A, ?_⟩
      intro f hf g hg
      rcases mem_identPart_attrs hf with ⟨⟨k, _, hfa⟩, _⟩
      rcases mem_diffPartB_src hg with ⟨hga, _⟩
      exact provLt_srcA_some_none hfa hga
  | symmetric_difference =>
      show (diffPartA 0 A B ++ diffPartB 0 B A).Pairwise provLt
      rw [List.pairwise_append]
      refine ⟨pairwise_diffPartA 0 A B, pairwise_diffPartB 0 B A, ?_⟩
      intro f hf g hg
      rcases mem_diffPartA_src hf with ⟨k, _, hfa⟩
      rcases mem_diffPartB_src hg with ⟨hga, _⟩
      exact provLt_srcA_some_none hfa hga

/-! Claims. -/

/-- C1: for A a layer containing the square with corners (0,0) and (2,2) and B
a layer containing the square with corners (1,1) and (3,3), overlay yields an
intersection of total area exactly 1 (the unit square (1,1)-(2,2)), a union of
total area exactly 7, and a difference of total area exactly 3. -/
theorem claim_C1 :
    okArea (overlay layerA1 layerB1 .intersection) = some 1 ∧
    okArea (overlay layerA1 layerB1 .union) = some 7 ∧
    okArea (overlay layerA1 layerB1 .difference) = some 3 := by
  decide

/-- C2 (counterexample): with A a single unit square and B two coincident
copies of that square, the intersection has total area 2 and the difference
total area 0, while A has total area 1, so area additivity fails for layers
whose features may overlap within a layer. -/
theorem claim_C2_counterexample :
    okArea (overlay cexA cexB .intersection) = some 2 ∧
    okArea (overlay cexA cexB .difference) = some 0 ∧
    2 + 0 ≠ cexA.totalArea := by
  decide

/-- C2 (amended): for layers A and B whose B features are pairwise disjoint,
the total area of the intersection overlay plus the total area of the
difference overlay equals the total area of A. -/
theorem claim_C2 (A B : Layer)
    (hB : B.features.Pairwise fun b b' => b.region ∩ b'.region = ∅)
    (r s : OverlayResult)
    (hr : overlay A B .intersection = .ok r)
    (hs : overlay A B .difference = .ok s) :
    r.totalArea + s.totalArea = A.totalArea := by
  rw [overlay_ok_elim hr, overlay_ok_elim hs]
  simp only [OverlayResult.totalArea, assemble]
  rw [areaSum_interPart, areaSum_diffPartA, ← sum_map_add_distrib]
  have hpt : ∀ a : Feature,
      interAreaRow a B.features + (a.region \ unionRegion B.features).card =
        a.region.card := by
    intro a
    rw [interAreaRow_of_pairwise hB]
    exact Finset.card_inter_add_card_sdiff _ _
  simp only [hpt]
  simp [Layer.totalArea]

/-- C2 (witness): the amended additivity at the concrete scenario layers. -/
theorem claim_C2_witness :
    layerB1.features.Pairwise (fun b b' => b.region ∩ b'.region = ∅) ∧
    (OverlayResult.mk "plane"
        (assemble .intersection layerA1.features layerB1.features)).totalArea +
      (OverlayResult.mk "plane"
        (assemble .difference layerA1.features layerB1.features)).totalArea =
      layerA1.totalArea :=
  ⟨by decide, claim_C2 layerA1 layerB1 (by decide) _ _ rfl rfl⟩

/-- C3: the symmetric difference overlay equals the union of the two one-sided
difference overlays in total area and in feature count, and each of its output
features carries the attributes of a feature of its respective source layer
only. -/
theorem claim_C3 (A B : Layer) (r s t : OverlayResult)
    (hr : overlay A B .symmetric_difference = .ok r)
    (hs : overlay A B .difference = .ok s)
    (ht : overlay B A .difference = .ok t) :
    r.totalArea = s.totalArea + t.totalArea ∧
    r.features.length = s.features.length + t.features.length ∧
    ∀ f ∈ r.features,
      (f.srcB = none ∧ ∃ a ∈ A.features, f.attrs = a.attrs) ∨
      (f.srcA = none ∧ ∃ b ∈ B.features, f.attrs = b.attrs) := by
  rw [overlay_ok_elim hr, overlay_ok_elim hs, overlay_ok_elim ht]
  refine ⟨?_, ?_, ?_⟩
  · simp only [OverlayResult.totalArea, assemble, areaSum_append,
      areaSum_diffPartA, areaSum_diffPartB]
  · simp only [assemble, List.length_append]
    rw [length_diffPartB_eq B.features A.features 0 0]
  · intro f hf
    simp only [assemble] at hf
    rcases List.mem_append.mp hf with h1 | h2
    · rcases mem_diffPartA_attrs h1 with ⟨hn, a, ha, hat, _⟩
      exact Or.inl ⟨hn, a, ha, hat⟩
    · rcases mem_diffPartB_attrs h2 with ⟨hn, b, hb, hat, _⟩
      exact Or.inr ⟨hn, b, hb, hat⟩

/-- C3 (witness): the symmetric difference equation at the concrete scenario
layers. -/
theorem claim_C3_witness :
    (OverlayResult.mk "plane"
        (assemble .symmetric_difference layerA1.features layerB1.features)).totalArea =
      (OverlayResult.mk "plane"
        (assemble .difference layerA1.features layerB1.features)).totalArea +
      (OverlayResult.mk "plane"
        (assemble .difference layerB1.features layerA1.features)).totalArea ∧
    (OverlayResult.mk "plane"
        (assemble .symmetric_difference layerA1.features layerB1.features)).features.length =
      (OverlayResult.mk "plane"
        (assemble .difference layerA1.features layerB1.features)).features.length +
      (OverlayResult.mk "plane"
        (assemble .difference layerB1.features layerA1.features)).features.length :=
  ⟨(claim_C3 layerA1 layerB1 _ _ _ rfl rfl rfl).1,
   (claim_C3 layerA1 layerB1 _ _ _ rfl rfl rfl).2.1⟩

/-- C4: the identity overlay is the intersection parts unioned with the
difference parts of A; its output covers exactly the extent of A (hence the
covered extent has the same area as the extent of A), carries merged
attributes on parts that overlap B, and A-only attributes elsewhere. -/
theorem claim_C4 (A B : Layer) (r : OverlayResult)
    (hr : overlay A B .identity = .ok r) :
    coverageR r.features = unionRegion A.features ∧
    (coverageR r.features).card = (unionRegion A.features).card ∧
    ∀ f ∈ r.features,
      (∃ a ∈ A.features, ∃ b ∈ B.features,
        f.attrs = mergeAttrs a.attrs b.attrs ∧
        f.geometry = a.region ∩ b.region) ∨
      (∃ a ∈ A.features, f.attrs = a.attrs ∧
        f.geometry = a.region \ unionRegion B.features) := by
  rw [overlay_ok_elim hr]
  dsimp only
  have hcov : coverageR (assemble .identity A.features B.features) =
      unionRegion A.features := coverageR_identPart 0 A.features B.features
  refine ⟨hcov, by rw [hcov], ?_⟩
  intro f hf
  exact (mem_identPart_attrs hf).2

/-- C4 (witness): the identity overlay conclusions at the concrete scenario
layers. -/
theorem claim_C4_witness :
    coverageR (OverlayResult.mk "plane"
        (assemble .identity layerA1.features layerB1.features)).features =
      unionRegion layerA1.features ∧
    (coverageR (OverlayResult.mk "plane"
        (assemble .identity layerA1.features layerB1.features)).features).card =
      (unionRegion layerA1.features).card :=
  ⟨(claim_C4 layerA1 layerB1 _ rfl).1, (claim_C4 layerA1 layerB1 _ rfl).2.1⟩

/-- C5: for layers whose features are pairwise non-overlapping across layers,
the intersection overlay is empty and the union overlay has total area equal
to the sum of the total areas of A and B. -/
theorem claim_C5 (A B : Layer)
    (hd : ∀ a ∈ A.features, ∀ b ∈ B.features, a.region ∩ b.region = ∅)
    (r s : OverlayResult)
    (hr : overlay A B .intersection = .ok r)
    (hs : overlay A B .union = .ok s) :
    r.features = [] ∧ s.totalArea = A.totalArea + B.totalArea := by
  rw [overlay_ok_elim hr, overlay_ok_elim hs]
  dsimp only
  constructor
  · exact interPart_eq_nil hd
  · show areaSum (identPart 0 A.features B.features ++
      diffPartB 0 B.features A.features) = _
    rw [areaSum_append, areaSum_identPart, areaSum_diffPartB]
    have hA : (A.features.map fun a =>
        interAreaRow a B.features + (a.region \ unionRegion B.features).card) =
        A.features.map fun a => a.region.card := by
      apply List.map_congr_left
      intro a ha
      rw [interAreaRow_eq_zero (hd a ha), sdiff_unionRegion_eq_self (hd a ha),
        Nat.zero_add]
    have hB : (B.features.map fun b =>
        (b.region \ unionRegion A.features).card) =
        B.features.map fun b => b.region.card := by
      apply List.map_congr_left
      intro b hb
      rw [sdiff_unionRegion_eq_self]
      intro a ha
      rw [Finset.inter_comm]
      exact hd a ha b hb
    rw [hA, hB]
    rfl

/-- C5 (witness): the disjoint-layer conclusions at the scenario A layer and a
far-away layer. -/
theorem claim_C5_witness :
    (OverlayResult.mk "plane"
        (assemble .intersection layerA1.features layerFar.features)).features = [] ∧
    (OverlayResult.mk "plane"
        (assemble .union layerA1.features layerFar.features)).totalArea =
      layerA1.totalArea + layerFar.totalArea :=
  claim_C5 layerA1 layerFar (by decide) _ _ rfl rfl

/-- C6: for the union, intersection and symmetric difference modes, overlaying
A with B and overlaying B with A produce results of equal total area. -/
theorem claim_C6 (A B : Layer) (m : Mode)
    (hm : m = .union ∨ m = .intersection ∨ m = .symmetric_difference)
    (r s : OverlayResult)
    (hr : overlay A B m = .ok r) (hs : overlay B A m = .ok s) :
    r.totalArea = s.totalArea := by
  rw [overlay_ok_elim hr, overlay_ok_elim hs]
  simp only [OverlayResult.totalArea]
  rcases hm with rfl | rfl | rfl
  · show areaSum (identPart 0 A.features B.features ++
        diffPartB 0 B.features A.features) =
      areaSum (identPart 0 B.features A.features ++
        diffPartB 0 A.features B.features)
    rw [areaSum_append, areaSum_append, areaSum_identPart, areaSum_identPart,
      areaSum_diffPartB, areaSum_diffPartB, sum_map_add_distrib,
      sum_map_add_distrib, interArea_swap]
    omega
  · show areaSum (interPart 0 A.features B.features) =
      areaSum (interPart 0 B.features A.features)
    rw [areaSum_interPart, areaSum_interPart, interArea_swap]
  · show areaSum (diffPartA 0 A.features B.features ++
        diffPartB 0 B.features A.features) =
      areaSum (diffPartA 0 B.features A.features ++
        diffPartB 0 A.features B.features)
    rw [areaSum_append, areaSum_append, areaSum_diffPartA, areaSum_diffPartA,
      areaSum_diffPartB, areaSum_diffPartB]
    omega

/-- C6 (witness): order insensitivity of the intersection mode at the concrete
scenario layers. -/
theorem claim_C6_witness :
    (Mode.intersection = Mode.union ∨ Mode.intersection = Mode.intersection ∨
      Mode.intersection = Mode.symmetric_difference) ∧
    (OverlayResult.mk "plane"
        (assemble .intersection layerA1.features layerB1.features)).totalArea =
      (OverlayResult.mk "plane"
        (assemble .intersection layerB1.features layerA1.features)).totalArea :=
  ⟨Or.inr (Or.inl rfl),
    claim_C6 layerA1 layerB1 .intersection (Or.inr (Or.inl rfl)) _ _ rfl rfl⟩

/-- C7: overlay is deterministic; two runs on identical inputs yield the very
same result (identical features, coordinates and ordering), and the output
features are strictly ordered primarily by input-A feature index and
secondarily by input-B feature index (absent indices ordering last). -/
theorem claim_C7 (A B : Layer) (m : Mode) (r r' : OverlayResult)
    (h : overlay A B m = .ok r) (h' : overlay A B m = .ok r') :
    r = r' ∧ r.features.Pairwise provLt := by
  constructor
  · rw [h] at h'
    exact (Except.ok.injEq _ _).mp h'
  · rw [overlay_ok_elim h]
    exact pairwise_assemble m A.features B.features

/-- C7 (witness): determinism and output ordering at the concrete scenario
layers under the union mode. -/
theorem claim_C7_witness :
    OverlayResult.mk "plane" (assemble .union layerA1.features layerB1.features) =
      OverlayResult.mk "plane" (assemble .union layerA1.features layerB1.features) ∧
    (OverlayResult.mk "plane"
        (assemble .union layerA1.features layerB1.features)).features.Pairwise provLt :=
  claim_C7 layerA1 layerB1 .union _ _ rfl rfl

/-- C8: overlay aborts with a CRS mismatch error whenever the reference frames
are not structurally equal; under equal frames it aborts with an unsupported
geometry error whenever a layer contains a non-polygonal geometry; an aborted
call returns a single terminating error and no partial result. -/
theorem claim_C8 (A B : Layer) (m : Mode) :
    (A.crs ≠ B.crs → overlay A B m = .error .crsMismatch) ∧
    (A.crs = B.crs →
      (∃ f ∈ A.features ++ B.features, f.geometry.isPolygonal = false) →
      overlay A B m = .error .unsupportedGeometry) ∧
    (∀ e, overlay A B m = .error e → ∀ r, overlay A B m ≠ .ok r) := by
  refine ⟨?_, ?_, ?_⟩
  · intro h
    unfold overlay
    rw [if_neg h]
  · rintro h1 ⟨f, hf, hpoly⟩
    unfold overlay
    rw [if_pos h1, if_neg ?_]
    intro hcond
    rw [Bool.and_eq_true, List.all_eq_true, List.all_eq_true] at hcond
    rcases List.mem_append.mp hf with hA | hB
    · rw [hcond.1 f hA] at hpoly
      cases hpoly
    · rw [hcond.2 f hB] at hpoly
      cases hpoly
  · intro e he r hok
    rw [he] at hok
    cases hok

/-- C8 (witness): a CRS mismatch aborts, and a point geometry under equal
frames aborts with the unsupported geometry error. -/
theorem claim_C8_witness :
    overlay layerA1 layerBadCrs .union = .error .crsMismatch ∧
    overlay layerA1 layerPt .union = .error .unsupportedGeometry :=
  ⟨(claim_C8 layerA1 layerBadCrs .union).1 (by decide),
   (claim_C8 layerA1 layerPt .union).2.1 rfl (by decide)⟩

/-- C9: running the engine never mutates the input layers held by the caller:
the workspace inputs are identical before and after the call, and the only
change is that a newly constructed result — a function of the input values —
may be appended to the result list. -/
theorem claim_C9 (w : Workspace) (ia ib : Nat) (m : Mode) :
    (runOverlay w ia ib m).inputs = w.inputs ∧
    ∃ t, (runOverlay w ia ib m).results = w.results ++ t ∧
      ∀ r ∈ t, ∃ A B, w.inputs[ia]? = some A ∧ w.inputs[ib]? = some B ∧
        overlay A B m = .ok r := by
  rcases hA : w.inputs[ia]? with _ | A
  · exact ⟨by simp [runOverlay, hA], [], by simp [runOverlay, hA], by simp⟩
  · rcases hB : w.inputs[ib]? with _ | B
    · exact ⟨by simp [runOverlay, hA, hB], [],
        by simp [runOverlay, hA, hB], by simp⟩
    · rcases hov : overlay A B m with e | r
      · exact ⟨by simp [runOverlay, hA, hB, hov], [],
          by simp [runOverlay, hA, hB, hov], by simp⟩
      · refine ⟨by simp [runOverlay, hA, hB, hov], [r],
          by simp [runOverlay, hA, hB, hov], ?_⟩
        intro r' hr'
        rcases List.mem_singleton.mp hr' with rfl
        exact ⟨A, B, rfl, rfl, hov⟩

/-- C9 (witness): the non-mutation conclusion at a concrete workspace holding
the two scenario layers. -/
theorem claim_C9_witness :
    (runOverlay (Workspace.mk [layerA1, layerB1] []) 0 1 .union).inputs =
      (Workspace.mk [layerA1, layerB1] []).inputs :=
  (claim_C9 (Workspace.mk [layerA1, layerB1] []) 0 1 .union).1

/-- C10: the area of the intersection of a geometry g with any geometry m is
between zero and the area of g, and therefore the fractional area lies in the
interval from 0 to 1 whenever g has positive area. -/
theorem claim_C10 (g m : Geometry) :
    0 ≤ gArea (gIntersection g m) ∧
    gArea (gIntersection g m) ≤ gArea g ∧
    (0 < gArea g →
      0 ≤ gArea (gIntersection g m) / gArea g ∧
      gArea (gIntersection g m) / gArea g ≤ 1) := by
  have h1 : 0 ≤ gArea (gIntersection g m) := by
    unfold gArea
    exact_mod_cast Nat.zero_le _
  have h2 : gArea (gIntersection g m) ≤ gArea g := by
    unfold gArea gIntersection
    show ((Geometry.region (.polygon (g.region ∩ m.region))).card : ℚ) ≤ _
    have : (g.region ∩ m.region).card ≤ g.region.card :=
      Finset.card_le_card Finset.inter_subset_left
    exact_mod_cast this
  refine ⟨h1, h2, ?_⟩
  intro hpos
  exact ⟨div_nonneg h1 (le_of_lt hpos), (div_le_one hpos).mpr h2⟩

/-- C10 (witness): the fractional area bounds at the unit square against
itself. -/
theorem claim_C10_witness :
    0 < gArea (Geometry.polygon (square 0 0 1)) ∧
    (0 ≤ gArea (gIntersection (Geometry.polygon (square 0 0 1))
          (Geometry.polygon (square 0 0 1))) /
        gArea (Geometry.polygon (square 0 0 1)) ∧
      gArea (gIntersection (Geometry.polygon (square 0 0 1))
          (Geometry.polygon (square 0 0 1))) /
        gArea (Geometry.polygon (square 0 0 1)) ≤ 1) := by
  have hc : (Geometry.polygon (square 0 0 1)).region.card = 1 := by decide
  have hpos : 0 < gArea (Geometry.polygon (square 0 0 1)) := by
    rw [gArea, hc]
    norm_num
  exact ⟨hpos, (claim_C10 (Geometry.polygon (square 0 0 1))
    (Geometry.polygon (square 0 0 1))).2.2 hpos⟩

end Overlay
